import Mathlib

/-!
Verification of the period aggregation and differencing engine of the
financial analytics dashboard.

The engine is `ApiService.simulateQueryExecution` in the frontend API
service: it groups raw result rows by `ProcessingDateKey` (summing
`CommitmentAmt` and `OutstandingAmt` and counting deals), sorts the keys
ascending with the JavaScript default string sort, and walks the sorted
sequence pairing each period with its predecessor, computing the relative
change fields `ca_diff`, `oa_diff` and `deals_diff`.

JavaScript numbers are modelled by `JSNum` (a finite rational or one of
NaN, +Infinity, -Infinity); the engine only ever adds values that pass an
`isFinite` guard, so all aggregates live in `ℚ`.  Strings are Lean
`String`s; the JavaScript default sort compares strings by their UTF-16
code units, modelled here by `charListLE` on the underlying character
lists (all keys of interest are ASCII digit strings, for which the two
coincide).
-/

namespace FinDash

/-- Model of a JavaScript number: a finite value (as a rational) or one of
the non-finite values NaN, +Infinity, -Infinity. -/
inductive JSNum where
  | fin (q : ℚ)
  | nan
  | inf
  | neginf
deriving DecidableEq

/-- JavaScript `isFinite`. -/
def JSNum.isFinite : JSNum → Bool
  | .fin _ => true
  | _ => false

/-- JavaScript `isNaN`. -/
def JSNum.isNaN : JSNum → Bool
  | .nan => true
  | _ => false

/-- The finite value carried by a `JSNum` (0 for the non-finite values; the
engine only reads this under an `isFinite` guard). -/
def JSNum.finPart : JSNum → ℚ
  | .fin q => q
  | _ => 0

/-- JavaScript `>=` on numbers: false whenever either side is NaN,
otherwise the numeric order with -Infinity below all finite values and
+Infinity above them. -/
def jsGE : JSNum → JSNum → Bool
  | .nan, _ => false
  | _, .nan => false
  | .inf, _ => true
  | .neginf, .neginf => true
  | .neginf, _ => false
  | .fin _, .inf => false
  | .fin _, .neginf => true
  | .fin a, .fin b => decide (b ≤ a)

/-- One raw result row consumed by the aggregation loop of
`simulateQueryExecution`.  The source reads each amount with the fallback
chain `row.CommitmentAmt ?? row.commitmentamt ?? 0` (camel and snake
spelling from the backend), so both spellings are modelled as optional
fields; the period key is read as `String(row.ProcessingDateKey ??
row.processingdatekey)` and is modelled as the resulting string. -/
structure RawRow where
  ProcessingDateKey : String
  CommitmentAmt : Option JSNum
  commitmentamt : Option JSNum
  OutstandingAmt : Option JSNum
  outstandingamt : Option JSNum
deriving DecidableEq

/-- The value `Number(row.CommitmentAmt ?? row.commitmentamt ?? 0)`. -/
def rowCANum (r : RawRow) : JSNum :=
  (r.CommitmentAmt.or r.commitmentamt).getD (.fin 0)

/-- The value `Number(row.OutstandingAmt ?? row.outstandingamt ?? 0)`. -/
def rowOANum (r : RawRow) : JSNum :=
  (r.OutstandingAmt.or r.outstandingamt).getD (.fin 0)

/-- The contribution of a row to its period's commitment total:
`isFinite(ca) ? ca : 0`. -/
def rowCA (r : RawRow) : ℚ :=
  if (rowCANum r).isFinite then (rowCANum r).finPart else 0

/-- The contribution of a row to its period's outstanding total:
`isFinite(oa) ? oa : 0`. -/
def rowOA (r : RawRow) : ℚ :=
  if (rowOANum r).isFinite then (rowOANum r).finPart else 0

/-- The per-period accumulator object
`{ CommitmentAmt: number; OutstandingAmt: number; Deals: number }`. -/
structure Agg where
  CommitmentAmt : ℚ
  OutstandingAmt : ℚ
  Deals : ℕ
deriving DecidableEq

/-- `aggMap.set(key, value)` on the insertion-ordered JavaScript `Map`,
modelled as an association list: replace the entry in place if the key is
present, append otherwise. -/
def insertAgg (k : String) (v : Agg) : List (String × Agg) → List (String × Agg)
  | [] => [(k, v)]
  | (k', v') :: rest => if k' = k then (k, v) :: rest else (k', v') :: insertAgg k v rest

/-- The body of the aggregation loop: read the current accumulator for the
row's key (`aggMap.get(key) || { CommitmentAmt: 0, OutstandingAmt: 0,
Deals: 0 }`), add the guarded amounts, increment the deal count, and store
the result back. -/
def aggStep (m : List (String × Agg)) (row : RawRow) : List (String × Agg) :=
  let key := row.ProcessingDateKey
  let current := (List.lookup key m).getD ⟨0, 0, 0⟩
  insertAgg key
    ⟨current.CommitmentAmt + rowCA row, current.OutstandingAmt + rowOA row, current.Deals + 1⟩ m

/-- The aggregation map built by folding the loop body over the rows. -/
def aggMapOf (rows : List RawRow) : List (String × Agg) :=
  rows.foldl aggStep []

/-- Lexicographic code-unit comparison of character lists, the order used
by the JavaScript default `Array.prototype.sort` on strings. -/
def charListLE : List Char → List Char → Bool
  | [], _ => true
  | _ :: _, [] => false
  | a :: as, b :: bs => if a = b then charListLE as bs else decide (a.toNat < b.toNat)

/-- Keyed comparison of aggregation entries: compare the period-key
strings by their character lists. -/
def keyLE (a b : String × Agg) : Prop := charListLE a.1.data b.1.data = true

instance : DecidableRel keyLE := fun a b =>
  inferInstanceAs (Decidable (charListLE a.1.data b.1.data = true))

/-- One output record of the engine.  The prior aggregate fields are plain
numbers in the source interface (`CommitmentAmtPrior: number; ...`); only
the six diff fields are nullable (`number | null`). -/
structure AnalyticsRecord where
  ProcessingDateKey : String
  CommitmentAmt : ℚ
  Deals : ℕ
  OutstandingAmt : ℚ
  ProcessingDateKeyPrior : String
  CommitmentAmtPrior : ℚ
  OutstandingAmtPrior : ℚ
  DealsPrior : ℕ
  ca_diff : Option ℚ
  oa_diff : Option ℚ
  deals_diff : Option ℚ
  ca_model_diff : Option ℚ
  oa_model_diff : Option ℚ
  deals_model_diff : Option ℚ
deriving DecidableEq

/-- The record built for one period in the walk over the sorted keys:
`prev` is the previous period's key and accumulator (or `none` for the
first period), `kc` the current key and accumulator.  Translates the
object literal of the source loop, including
`ca_diff: prev && prev.CommitmentAmt > 0 ? (cur.CommitmentAmt - prev.CommitmentAmt) / prev.CommitmentAmt : null`
and its two siblings. -/
def mkRecord (prev : Option (String × Agg)) (kc : String × Agg) : AnalyticsRecord where
  ProcessingDateKey := kc.1
  CommitmentAmt := kc.2.CommitmentAmt
  Deals := kc.2.Deals
  OutstandingAmt := kc.2.OutstandingAmt
  ProcessingDateKeyPrior := match prev with | some p => p.1 | none => "0"
  CommitmentAmtPrior := match prev with | some p => p.2.CommitmentAmt | none => 0
  OutstandingAmtPrior := match prev with | some p => p.2.OutstandingAmt | none => 0
  DealsPrior := match prev with | some p => p.2.Deals | none => 0
  ca_diff := match prev with
    | some p =>
        if 0 < p.2.CommitmentAmt then
          some ((kc.2.CommitmentAmt - p.2.CommitmentAmt) / p.2.CommitmentAmt)
        else none
    | none => none
  oa_diff := match prev with
    | some p =>
        if 0 < p.2.OutstandingAmt then
          some ((kc.2.OutstandingAmt - p.2.OutstandingAmt) / p.2.OutstandingAmt)
        else none
    | none => none
  deals_diff := match prev with
    | some p =>
        if 0 < p.2.Deals then
          some (((kc.2.Deals : ℚ) - (p.2.Deals : ℚ)) / (p.2.Deals : ℚ))
        else none
    | none => none
  ca_model_diff := none
  oa_model_diff := none
  deals_model_diff := none

/-- The walk over the sorted per-period entries, threading the previous
entry exactly as the source loop threads `prev`. -/
def buildRecords : Option (String × Agg) → List (String × Agg) → List AnalyticsRecord
  | _, [] => []
  | prev, kc :: rest => mkRecord prev kc :: buildRecords (some kc) rest

/-- The aggregation and differencing engine
(`ApiService.simulateQueryExecution`, after the awaited backend query):
group rows by period key, sort the entries ascending by key with the
JavaScript string sort, and walk the sorted sequence building one
`AnalyticsRecord` per period.  Sorting the entries by key is equivalent to
the source's sorting of the key array followed by `aggMap.get(key)!`,
since the map's keys are distinct. -/
def simulateQueryExecution (rows : List RawRow) : List AnalyticsRecord :=
  buildRecords none (List.insertionSort keyLE (aggMapOf rows))

/-! Specification-side functions used to state the claims: the rows of a
given period, and their sums and count. -/

/-- The input rows belonging to period key `k`. -/
def rowsFor (k : String) (rows : List RawRow) : List RawRow :=
  rows.filter (fun r => r.ProcessingDateKey == k)

/-- Sum of the guarded commitment contributions of the rows of period `k`. -/
def sumCA (k : String) (rows : List RawRow) : ℚ :=
  ((rowsFor k rows).map rowCA).sum

/-- Sum of the guarded outstanding contributions of the rows of period `k`. -/
def sumOA (k : String) (rows : List RawRow) : ℚ :=
  ((rowsFor k rows).map rowOA).sum

/-- Number of input rows of period `k`. -/
def countFor (k : String) (rows : List RawRow) : ℕ :=
  (rowsFor k rows).length

/-- The accumulator the engine is expected to produce for period `k`. -/
def aggAt (k : String) (rows : List RawRow) : Agg :=
  ⟨sumCA k rows, sumOA k rows, countFor k rows⟩

/-- Sum of the plain (unguarded) commitment amounts of the rows of period
`k`; agrees with `sumCA` when all amounts are finite. -/
def plainSumCA (k : String) (rows : List RawRow) : ℚ :=
  ((rowsFor k rows).map (fun r => (rowCANum r).finPart)).sum

/-- Sum of the plain (unguarded) outstanding amounts of the rows of period
`k`; agrees with `sumOA` when all amounts are finite. -/
def plainSumOA (k : String) (rows : List RawRow) : ℚ :=
  ((rowsFor k rows).map (fun r => (rowOANum r).finPart)).sum

/-! Digit strings.  A valid `YYYYMMDD` period key is an eight-character
ASCII digit string; for such strings of equal length the JavaScript
lexicographic string order coincides with the numeric order of their
values, which is what the chronological-ordering claim is about. -/

/-- The character is an ASCII digit. -/
def isDigitChar (c : Char) : Prop := 48 ≤ c.toNat ∧ c.toNat ≤ 57

instance (c : Char) : Decidable (isDigitChar c) :=
  inferInstanceAs (Decidable (_ ∧ _))

/-- Numeric value of a digit string, most significant digit first. -/
def valDigits : List Char → ℕ
  | [] => 0
  | c :: cs => (c.toNat - 48) * 10 ^ cs.length + valDigits cs

/-- Numeric value of a period-key string. -/
def keyNum (s : String) : ℕ := valDigits s.data

/-- Shape of a valid `YYYYMMDD` period key: eight ASCII digit characters.
Every valid calendar date in `YYYYMMDD` form has this shape, and the
shape is all the ordering argument needs. -/
def ValidYYYYMMDD (s : String) : Prop :=
  s.data.length = 8 ∧ ∀ c ∈ s.data, isDigitChar c

instance (s : String) : Decidable (ValidYYYYMMDD s) :=
  inferInstanceAs (Decidable (_ ∧ _))

/-! Association-list lemmas for the aggregation map. -/

theorem lookup_cons_self {a : String} {v : Agg} {m : List (String × Agg)} :
    List.lookup a ((a, v) :: m) = some v := by
  simp [List.lookup]

theorem lookup_cons_ne {a k : String} {v : Agg} {m : List (String × Agg)} (h : a ≠ k) :
    List.lookup a ((k, v) :: m) = List.lookup a m := by
  simp only [List.lookup]
  rw [show (a == k) = false from beq_eq_false_iff_ne.mpr h]

theorem lookup_nil (a : String) : List.lookup a ([] : List (String × Agg)) = none := rfl

theorem lookup_insertAgg_self (k : String) (v : Agg) (m : List (String × Agg)) :
    List.lookup k (insertAgg k v m) = some v := by
  induction m with
  | nil => simp [insertAgg, lookup_cons_self]
  | cons p rest ih =>
    obtain ⟨k', v'⟩ := p
    by_cases h : k' = k
    · subst h
      simp [insertAgg, lookup_cons_self]
    · rw [show insertAgg k v ((k', v') :: rest) = (k', v') :: insertAgg k v rest from by
        simp [insertAgg, h]]
      rw [lookup_cons_ne (Ne.symm h)]
      exact ih

theorem lookup_insertAgg_ne {a k : String} (v : Agg) (m : List (String × Agg))
    (h : a ≠ k) : List.lookup a (insertAgg k v m) = List.lookup a m := by
  induction m with
  | nil => simp [insertAgg, lookup_cons_ne h, lookup_nil]
  | cons p rest ih =>
    obtain ⟨k', v'⟩ := p
    by_cases hk : k' = k
    · subst hk
      simp [insertAgg, lookup_cons_ne h]
    · rw [show insertAgg k v ((k', v') :: rest) = (k', v') :: insertAgg k v rest from by
        simp [insertAgg, hk]]
      by_cases ha : a = k'
      · subst ha
        simp [lookup_cons_self]
      · rw [lookup_cons_ne ha, lookup_cons_ne ha]
        exact ih

theorem mem_keys_insertAgg {a k : String} {v : Agg} {m : List (String × Agg)} :
    a ∈ (insertAgg k v m).map Prod.fst ↔ a = k ∨ a ∈ m.map Prod.fst := by
  induction m with
  | nil => simp [insertAgg]
  | cons p rest ih =>
    obtain ⟨k', v'⟩ := p
    by_cases h : k' = k
    · subst h
      simp [insertAgg]
    · simp [insertAgg, if_neg h, ih]
      tauto

theorem nodup_keys_insertAgg {k : String} {v : Agg} {m : List (String × Agg)}
    (h : (m.map Prod.fst).Nodup) : ((insertAgg k v m).map Prod.fst).Nodup := by
  induction m with
  | nil => simp [insertAgg]
  | cons p rest ih =>
    obtain ⟨k', v'⟩ := p
    simp only [List.map_cons, List.nodup_cons] at h
    by_cases hk : k' = k
    · subst hk
      simpa [insertAgg] using h
    · simp only [insertAgg, if_neg hk, List.map_cons, List.nodup_cons]
      refine ⟨?_, ih h.2⟩
      intro hmem
      rcases mem_keys_insertAgg.mp hmem with h1 | h1
      · exact hk h1
      · exact h.1 h1

theorem mem_insertAgg {p : String × Agg} {k : String} {v : Agg} {m : List (String × Agg)}
    (hp : p ∈ insertAgg k v m) : p = (k, v) ∨ p ∈ m := by
  induction m with
  | nil => simpa [insertAgg] using hp
  | cons q rest ih =>
    obtain ⟨k', v'⟩ := q
    by_cases h : k' = k
    · subst h
      rcases (by simpa [insertAgg] using hp : p = (k', v) ∨ p ∈ rest) with h1 | h1
      · exact Or.inl h1
      · exact Or.inr (List.mem_cons_of_mem _ h1)
    · rcases (by simpa [insertAgg, if_neg h] using hp : p = (k', v') ∨ p ∈ insertAgg k v rest)
        with h1 | h1
      · exact Or.inr (by simp [h1])
      · rcases ih h1 with h2 | h2
        · exact Or.inl h2
        · exact Or.inr (List.mem_cons_of_mem _ h2)

theorem lookup_isSome_iff (a : String) (m : List (String × Agg)) :
    (List.lookup a m).isSome = true ↔ a ∈ m.map Prod.fst := by
  induction m with
  | nil => simp [lookup_nil]
  | cons p rest ih =>
    obtain ⟨k', v'⟩ := p
    by_cases h : a = k'
    · subst h
      simp [lookup_cons_self]
    · rw [lookup_cons_ne h]
      simp [ih, h]

theorem lookup_eq_of_mem_nodup {a : String} {v : Agg} {m : List (String × Agg)}
    (h : (m.map Prod.fst).Nodup) (hp : (a, v) ∈ m) : List.lookup a m = some v := by
  induction m with
  | nil => simp at hp
  | cons q rest ih =>
    obtain ⟨k', v'⟩ := q
    simp only [List.map_cons, List.nodup_cons] at h
    rcases List.mem_cons.mp hp with h1 | h1
    · injection h1 with h1a h1b
      subst h1a; subst h1b
      exact lookup_cons_self
    · have ha : a ≠ k' := by
        rintro rfl
        exact h.1 (List.mem_map.mpr ⟨(a, v), h1, rfl⟩)
      rw [lookup_cons_ne ha]
      exact ih h.2 h1

/-! Cons lemmas for the specification-side sums. -/

theorem rowsFor_cons (k : String) (r : RawRow) (rows : List RawRow) :
    rowsFor k (r :: rows) =
      if r.ProcessingDateKey = k then r :: rowsFor k rows else rowsFor k rows := by
  by_cases h : r.ProcessingDateKey = k <;> simp [rowsFor, h]

theorem sumCA_cons_eq {k : String} {r : RawRow} (rows : List RawRow)
    (h : r.ProcessingDateKey = k) : sumCA k (r :: rows) = rowCA r + sumCA k rows := by
  simp [sumCA, rowsFor_cons, h]

theorem sumCA_cons_ne {k : String} {r : RawRow} (rows : List RawRow)
    (h : r.ProcessingDateKey ≠ k) : sumCA k (r :: rows) = sumCA k rows := by
  simp [sumCA, rowsFor_cons, h]

theorem sumOA_cons_eq {k : String} {r : RawRow} (rows : List RawRow)
    (h : r.ProcessingDateKey = k) : sumOA k (r :: rows) = rowOA r + sumOA k rows := by
  simp [sumOA, rowsFor_cons, h]

theorem sumOA_cons_ne {k : String} {r : RawRow} (rows : List RawRow)
    (h : r.ProcessingDateKey ≠ k) : sumOA k (r :: rows) = sumOA k rows := by
  simp [sumOA, rowsFor_cons, h]

theorem countFor_cons_eq {k : String} {r : RawRow} (rows : List RawRow)
    (h : r.ProcessingDateKey = k) : countFor k (r :: rows) = countFor k rows + 1 := by
  simp [countFor, rowsFor_cons, h]

theorem countFor_cons_ne {k : String} {r : RawRow} (rows : List RawRow)
    (h : r.ProcessingDateKey ≠ k) : countFor k (r :: rows) = countFor k rows := by
  simp [countFor, rowsFor_cons, h]

theorem countFor_ne_zero_iff (k : String) (rows : List RawRow) :
    countFor k rows ≠ 0 ↔ k ∈ rows.map RawRow.ProcessingDateKey := by
  rw [countFor, ← Nat.pos_iff_ne_zero, List.length_pos_iff_exists_mem]
  constructor
  · rintro ⟨r, hr⟩
    rw [rowsFor, List.mem_filter] at hr
    exact List.mem_map.mpr ⟨r, hr.1, by simpa [beq_iff_eq] using hr.2⟩
  · rintro hmem
    obtain ⟨r, hr, hk⟩ := List.mem_map.mp hmem
    exact ⟨r, List.mem_filter.mpr ⟨hr, by simpa [beq_iff_eq] using hk⟩⟩

/-! Characterization of the aggregation fold. -/

theorem lookup_foldl_aggStep (rows : List RawRow) :
    ∀ (m : List (String × Agg)) (k : String),
      List.lookup k (List.foldl aggStep m rows) =
        match List.lookup k m with
        | some a =>
            some ⟨a.CommitmentAmt + sumCA k rows, a.OutstandingAmt + sumOA k rows,
              a.Deals + countFor k rows⟩
        | none => if countFor k rows = 0 then none else some (aggAt k rows) := by
  induction rows with
  | nil =>
    intro m k
    rcases hm : List.lookup k m with _ | a
    · simp [hm, countFor, rowsFor]
    · cases a
      simp [hm, sumCA, sumOA, countFor, rowsFor]
  | cons r rest ih =>
    intro m k
    rw [List.foldl_cons, ih (aggStep m r) k]
    by_cases hk : r.ProcessingDateKey = k
    · subst hk
      have hlook : List.lookup r.ProcessingDateKey (aggStep m r) =
          some ⟨((List.lookup r.ProcessingDateKey m).getD ⟨0, 0, 0⟩).CommitmentAmt + rowCA r,
            ((List.lookup r.ProcessingDateKey m).getD ⟨0, 0, 0⟩).OutstandingAmt + rowOA r,
            ((List.lookup r.ProcessingDateKey m).getD ⟨0, 0, 0⟩).Deals + 1⟩ := by
        rw [aggStep]
        exact lookup_insertAgg_self _ _ _
      rw [hlook]
      rcases hm : List.lookup r.ProcessingDateKey m with _ | a
      · simp only [Option.getD_none, aggAt]
        rw [sumCA_cons_eq rest rfl, sumOA_cons_eq rest rfl, countFor_cons_eq rest rfl]
        rw [if_neg (Nat.succ_ne_zero _)]
        simp only [Option.some.injEq, Agg.mk.injEq]
        refine ⟨by ring, by ring, by omega⟩
      · simp only [Option.getD_some]
        rw [sumCA_cons_eq rest rfl, sumOA_cons_eq rest rfl, countFor_cons_eq rest rfl]
        simp only [Option.some.injEq, Agg.mk.injEq]
        refine ⟨by ring, by ring, by omega⟩
    · have hlook : List.lookup k (aggStep m r) = List.lookup k m := by
        rw [aggStep]
        exact lookup_insertAgg_ne _ _ (fun h => hk h.symm)
      rw [hlook]
      simp only [aggAt]
      rw [sumCA_cons_ne rest hk, sumOA_cons_ne rest hk, countFor_cons_ne rest hk]

theorem nodup_keys_foldl (rows : List RawRow) :
    ∀ m : List (String × Agg), (m.map Prod.fst).Nodup →
      ((List.foldl aggStep m rows).map Prod.fst).Nodup := by
  induction rows with
  | nil => intro m hm; simpa using hm
  | cons r rest ih =>
    intro m hm
    rw [List.foldl_cons]
    exact ih _ (nodup_keys_insertAgg hm)

theorem nodup_keys_aggMapOf (rows : List RawRow) :
    ((aggMapOf rows).map Prod.fst).Nodup :=
  nodup_keys_foldl rows [] (by simp)

theorem mem_keys_aggMapOf (rows : List RawRow) (k : String) :
    k ∈ (aggMapOf rows).map Prod.fst ↔ k ∈ rows.map RawRow.ProcessingDateKey := by
  rw [← lookup_isSome_iff, aggMapOf, lookup_foldl_aggStep rows [] k, lookup_nil]
  by_cases h : countFor k rows = 0
  · simp only [h, if_pos]
    simp only [Option.isSome_none, Bool.false_eq_true, false_iff]
    intro hmem
    exact (countFor_ne_zero_iff k rows).mpr hmem h
  · rw [if_neg h]
    simp only [Option.isSome_some, true_iff]
    exact (countFor_ne_zero_iff k rows).mp h

theorem mem_aggMapOf {p : String × Agg} {rows : List RawRow} (hp : p ∈ aggMapOf rows) :
    p.2 = aggAt p.1 rows ∧ p.1 ∈ rows.map RawRow.ProcessingDateKey := by
  have hkey : p.1 ∈ (aggMapOf rows).map Prod.fst := List.mem_map.mpr ⟨p, hp, rfl⟩
  have hlook : List.lookup p.1 (aggMapOf rows) = some p.2 := by
    obtain ⟨a, b⟩ := p
    exact lookup_eq_of_mem_nodup (nodup_keys_aggMapOf rows) hp
  rw [aggMapOf, lookup_foldl_aggStep rows [] p.1, lookup_nil] at hlook
  by_cases h : countFor p.1 rows = 0
  · rw [if_pos h] at hlook
    exact absurd hlook (by simp)
  · rw [if_neg h] at hlook
    exact ⟨(Option.some.injEq .. ▸ hlook).symm, (countFor_ne_zero_iff p.1 rows).mp h⟩

/-! Order properties of the code-unit string comparison. -/

theorem char_toNat_inj {a b : Char} (h : a.toNat = b.toNat) : a = b :=
  Char.ext_iff.mpr (UInt32.ext h)

theorem charListLE_total : ∀ x y : List Char, charListLE x y = true ∨ charListLE y x = true := by
  intro x
  induction x with
  | nil => intro y; exact Or.inl rfl
  | cons a as ih =>
    intro y
    cases y with
    | nil => exact Or.inr rfl
    | cons b bs =>
      by_cases hab : a = b
      · subst hab
        simpa [charListLE] using ih bs
      · have hnat : a.toNat ≠ b.toNat := fun h => hab (char_toNat_inj h)
        rcases Nat.lt_or_ge a.toNat b.toNat with h | h
        · exact Or.inl (by simp [charListLE, hab, h])
        · have hlt : b.toNat < a.toNat := lt_of_le_of_ne h (Ne.symm hnat)
          exact Or.inr (by simp [charListLE, Ne.symm hab, hlt])

theorem charListLE_trans :
    ∀ x y z : List Char, charListLE x y = true → charListLE y z = true →
      charListLE x z = true := by
  intro x
  induction x with
  | nil => intro y z _ _; rfl
  | cons a as ih =>
    intro y z hxy hyz
    cases y with
    | nil => simp [charListLE] at hxy
    | cons b bs =>
      cases z with
      | nil => simp [charListLE] at hyz
      | cons c cs =>
        by_cases hab : a = b <;> by_cases hbc : b = c
        · subst hab; subst hbc
          have h1 : charListLE as bs = true := by simpa [charListLE] using hxy
          have h2 : charListLE bs cs = true := by simpa [charListLE] using hyz
          simpa [charListLE] using ih bs cs h1 h2
        · subst hab
          have h2 : a.toNat < c.toNat := by simpa [charListLE, hbc] using hyz
          have hac : a ≠ c := fun h => hbc (h ▸ rfl)
          simp [charListLE, hac, h2]
        · subst hbc
          have h1 : a.toNat < b.toNat := by simpa [charListLE, hab] using hxy
          simp [charListLE, hab, h1]
        · have h1 : a.toNat < b.toNat := by simpa [charListLE, hab] using hxy
          have h2 : b.toNat < c.toNat := by simpa [charListLE, hbc] using hyz
          have h3 : a.toNat < c.toNat := Nat.lt_trans h1 h2
          have hac : a ≠ c := by
            rintro rfl
            exact Nat.lt_irrefl _ (Nat.lt_trans h1 h2)
          simp [charListLE, hac, h3]

instance : IsTotal (String × Agg) keyLE :=
  ⟨fun a b => charListLE_total a.1.data b.1.data⟩

instance : IsTrans (String × Agg) keyLE :=
  ⟨fun a b c => charListLE_trans a.1.data b.1.data c.1.data⟩

/-! For equal-length digit strings the code-unit order is the numeric
order of the digit values. -/

theorem valDigits_lt_pow {l : List Char} (h : ∀ c ∈ l, isDigitChar c) :
    valDigits l < 10 ^ l.length := by
  induction l with
  | nil => simp [valDigits]
  | cons c cs ih =>
    have hc := h c (List.mem_cons_self ..)
    have hcs := ih (fun x hx => h x (List.mem_cons_of_mem _ hx))
    obtain ⟨hc1, hc2⟩ := hc
    calc valDigits (c :: cs) = (c.toNat - 48) * 10 ^ cs.length + valDigits cs := rfl
      _ < (c.toNat - 48) * 10 ^ cs.length + 10 ^ cs.length := by omega
      _ = (c.toNat - 48 + 1) * 10 ^ cs.length := by ring
      _ ≤ 10 * 10 ^ cs.length := Nat.mul_le_mul_right _ (by omega)
      _ = 10 ^ (c :: cs).length := by rw [List.length_cons, pow_succ]; ring

theorem charListLE_val_lt :
    ∀ {x y : List Char}, x.length = y.length →
      (∀ c ∈ x, isDigitChar c) → (∀ c ∈ y, isDigitChar c) →
      charListLE x y = true → x ≠ y → valDigits x < valDigits y := by
  intro x
  induction x with
  | nil =>
    intro y hlen _ _ _ hne
    cases y with
    | nil => exact absurd rfl hne
    | cons b bs => simp at hlen
  | cons a as ih =>
    intro y hlen hx hy hle hne
    cases y with
    | nil => simp at hlen
    | cons b bs =>
      have hlen2 : as.length = bs.length := by simpa using hlen
      by_cases hab : a = b
      · subst hab
        have hle2 : charListLE as bs = true := by simpa [charListLE] using hle
        have hne2 : as ≠ bs := fun h => hne (by rw [h])
        have hval := ih hlen2 (fun c hc => hx c (List.mem_cons_of_mem _ hc))
          (fun c hc => hy c (List.mem_cons_of_mem _ hc)) hle2 hne2
        have hva : valDigits (a :: as) = (a.toNat - 48) * 10 ^ as.length + valDigits as := rfl
        have hvb : valDigits (a :: bs) = (a.toNat - 48) * 10 ^ bs.length + valDigits bs := rfl
        rw [hva, hvb, hlen2]
        omega
      · have hlt : a.toNat < b.toNat := by simpa [charListLE, hab] using hle
        obtain ⟨ha1, ha2⟩ := hx a (List.mem_cons_self ..)
        obtain ⟨hb1, hb2⟩ := hy b (List.mem_cons_self ..)
        have h1 : valDigits as < 10 ^ as.length :=
          valDigits_lt_pow (fun c hc => hx c (List.mem_cons_of_mem _ hc))
        calc valDigits (a :: as) = (a.toNat - 48) * 10 ^ as.length + valDigits as := rfl
          _ < (a.toNat - 48) * 10 ^ as.length + 10 ^ as.length := by omega
          _ = (a.toNat - 48 + 1) * 10 ^ as.length := by ring
          _ ≤ (b.toNat - 48) * 10 ^ as.length := Nat.mul_le_mul_right _ (by omega)
          _ = (b.toNat - 48) * 10 ^ bs.length := by rw [hlen2]
          _ ≤ (b.toNat - 48) * 10 ^ bs.length + valDigits bs := Nat.le_add_right _ _
          _ = valDigits (b :: bs) := rfl

/-! Properties of the record-building walk. -/

theorem buildRecords_length : ∀ (l : List (String × Agg)) (prev : Option (String × Agg)),
    (buildRecords prev l).length = l.length := by
  intro l
  induction l with
  | nil => intro prev; rfl
  | cons p t ih => intro prev; simp [buildRecords, ih]

theorem buildRecords_map_key : ∀ (l : List (String × Agg)) (prev : Option (String × Agg)),
    (buildRecords prev l).map AnalyticsRecord.ProcessingDateKey = l.map Prod.fst := by
  intro l
  induction l with
  | nil => intro prev; rfl
  | cons p t ih => intro prev; simp [buildRecords, ih, mkRecord]

theorem mem_buildRecords {r : AnalyticsRecord} :
    ∀ {l : List (String × Agg)} {prev : Option (String × Agg)},
      r ∈ buildRecords prev l → ∃ p q, p ∈ l ∧ r = mkRecord q p := by
  intro l
  induction l with
  | nil => intro prev h; simp [buildRecords] at h
  | cons p t ih =>
    intro prev h
    rcases List.mem_cons.mp h with h1 | h1
    · exact ⟨p, prev, List.mem_cons_self .., h1⟩
    · obtain ⟨p2, q2, hp2, hr2⟩ := ih h1
      exact ⟨p2, q2, List.mem_cons_of_mem _ hp2, hr2⟩

/-- The relation between two consecutive output records: the prior fields
of the second record copy the aggregate fields of the first, and each diff
field is computed from them exactly as in the source loop. -/
def adjacentOK (r r' : AnalyticsRecord) : Prop :=
  r'.ProcessingDateKeyPrior = r.ProcessingDateKey ∧
  r'.CommitmentAmtPrior = r.CommitmentAmt ∧
  r'.OutstandingAmtPrior = r.OutstandingAmt ∧
  r'.DealsPrior = r.Deals ∧
  r'.ca_diff = (if 0 < r.CommitmentAmt then
    some ((r'.CommitmentAmt - r.CommitmentAmt) / r.CommitmentAmt) else none) ∧
  r'.oa_diff = (if 0 < r.OutstandingAmt then
    some ((r'.OutstandingAmt - r.OutstandingAmt) / r.OutstandingAmt) else none) ∧
  r'.deals_diff = (if 0 < r.Deals then
    some (((r'.Deals : ℚ) - (r.Deals : ℚ)) / (r.Deals : ℚ)) else none)

theorem adjacentOK_mkRecord (prev : Option (String × Agg)) (p q : String × Agg) :
    adjacentOK (mkRecord prev p) (mkRecord (some p) q) :=
  ⟨rfl, rfl, rfl, rfl, rfl, rfl, rfl⟩

theorem chain_buildRecords : ∀ (l : List (String × Agg)) (prev : Option (String × Agg)),
    List.Chain' adjacentOK (buildRecords prev l) := by
  intro l
  induction l with
  | nil => intro prev; exact List.chain'_nil
  | cons p t ih =>
    intro prev
    rw [show buildRecords prev (p :: t) = mkRecord prev p :: buildRecords (some p) t from rfl]
    refine List.chain'_cons'.mpr ⟨?_, ih (some p)⟩
    intro y hy
    cases t with
    | nil => simp [buildRecords] at hy
    | cons q t2 =>
      have : mkRecord (some p) q = y := by
        simpa [buildRecords] using hy
      rw [← this]
      exact adjacentOK_mkRecord prev p q

theorem chain_get {R : AnalyticsRecord → AnalyticsRecord → Prop} :
    ∀ {l : List AnalyticsRecord}, List.Chain' R l →
      ∀ (i : ℕ) (h : i + 1 < l.length),
        R (l.get ⟨i, Nat.lt_of_succ_lt h⟩) (l.get ⟨i + 1, h⟩) := by
  intro l
  induction l with
  | nil => intro _ i h; simp at h
  | cons a t ih =>
    intro hc i h
    cases t with
    | nil => simp at h
    | cons b t2 =>
      rcases List.chain'_cons.mp hc with ⟨hab, hrest⟩
      cases i with
      | zero => simpa using hab
      | succ j =>
        have h2 : j + 1 < (b :: t2).length := by simpa using h
        simpa using ih hrest j h2

/-! Top-level facts about the engine. -/

theorem simulateQueryExecution_nil : simulateQueryExecution [] = [] := rfl

theorem out_map_key (rows : List RawRow) :
    (simulateQueryExecution rows).map AnalyticsRecord.ProcessingDateKey =
      (List.insertionSort keyLE (aggMapOf rows)).map Prod.fst :=
  buildRecords_map_key _ _

theorem out_keys_nodup (rows : List RawRow) :
    ((simulateQueryExecution rows).map AnalyticsRecord.ProcessingDateKey).Nodup := by
  rw [out_map_key]
  exact ((List.perm_insertionSort keyLE (aggMapOf rows)).map Prod.fst).nodup_iff.mpr
    (nodup_keys_aggMapOf rows)

theorem mem_out_keys (rows : List RawRow) (k : String) :
    k ∈ (simulateQueryExecution rows).map AnalyticsRecord.ProcessingDateKey ↔
      k ∈ rows.map RawRow.ProcessingDateKey := by
  rw [out_map_key]
  rw [((List.perm_insertionSort keyLE (aggMapOf rows)).map Prod.fst).mem_iff]
  exact mem_keys_aggMapOf rows k

theorem out_keys_pairwise (rows : List RawRow) :
    List.Pairwise (fun a b : String => charListLE a.data b.data = true)
      ((simulateQueryExecution rows).map AnalyticsRecord.ProcessingDateKey) := by
  rw [out_map_key]
  exact List.pairwise_map.mpr (List.sorted_insertionSort keyLE (aggMapOf rows))

theorem mem_out_entry {r : AnalyticsRecord} {rows : List RawRow}
    (hr : r ∈ simulateQueryExecution rows) :
    ∃ p q, p ∈ aggMapOf rows ∧ r = mkRecord q p := by
  obtain ⟨p, q, hp, hrq⟩ := mem_buildRecords hr
  exact ⟨p, q, (List.perm_insertionSort keyLE (aggMapOf rows)).mem_iff.mp hp, hrq⟩

theorem out_fields {r : AnalyticsRecord} {rows : List RawRow}
    (hr : r ∈ simulateQueryExecution rows) :
    r.CommitmentAmt = sumCA r.ProcessingDateKey rows ∧
    r.OutstandingAmt = sumOA r.ProcessingDateKey rows ∧
    r.Deals = countFor r.ProcessingDateKey rows ∧
    r.ProcessingDateKey ∈ rows.map RawRow.ProcessingDateKey := by
  obtain ⟨p, q, hp, hrq⟩ := mem_out_entry hr
  obtain ⟨hagg, hmem⟩ := mem_aggMapOf hp
  have hpk : r.ProcessingDateKey = p.1 := by rw [hrq]; rfl
  have hca : r.CommitmentAmt = p.2.CommitmentAmt := by rw [hrq]; rfl
  have hoa : r.OutstandingAmt = p.2.OutstandingAmt := by rw [hrq]; rfl
  have hd : r.Deals = p.2.Deals := by rw [hrq]; rfl
  rw [hpk, hca, hoa, hd, hagg]
  exact ⟨rfl, rfl, rfl, hmem⟩

theorem out_ne_nil {rows : List RawRow} (h : rows ≠ []) :
    simulateQueryExecution rows ≠ [] := by
  intro hnil
  have hlen : (simulateQueryExecution rows).length = (aggMapOf rows).length := by
    rw [simulateQueryExecution, buildRecords_length]
    exact (List.perm_insertionSort keyLE (aggMapOf rows)).length_eq
  cases rows with
  | nil => exact h rfl
  | cons r rest =>
    have hk : r.ProcessingDateKey ∈ (aggMapOf (r :: rest)).map Prod.fst :=
      (mem_keys_aggMapOf (r :: rest) r.ProcessingDateKey).mpr (by simp)
    have : aggMapOf (r :: rest) ≠ [] := by
      intro he
      rw [he] at hk
      simp at hk
    rw [hnil] at hlen
    exact this (List.length_eq_zero.mp hlen.symm)

theorem out_head_eq {rows : List RawRow} (h : simulateQueryExecution rows ≠ []) :
    ∃ p t, List.insertionSort keyLE (aggMapOf rows) = p :: t ∧
      (simulateQueryExecution rows).head h = mkRecord none p := by
  rcases hs : List.insertionSort keyLE (aggMapOf rows) with _ | ⟨p, t⟩
  · exact absurd (by rw [simulateQueryExecution, hs]; rfl) h
  · refine ⟨p, t, rfl, ?_⟩
    have : simulateQueryExecution rows = mkRecord none p :: buildRecords (some p) t := by
      rw [simulateQueryExecution, hs]
      rfl
    simp [this]

/-- The `i`-th output record of the engine. -/
def recAt (rows : List RawRow) (i : ℕ) (h : i < (simulateQueryExecution rows).length) :
    AnalyticsRecord :=
  (simulateQueryExecution rows).get ⟨i, h⟩

theorem recAt_adjacent (rows : List RawRow) (i : ℕ)
    (h : i + 1 < (simulateQueryExecution rows).length) :
    adjacentOK (recAt rows i (Nat.lt_of_succ_lt h)) (recAt rows (i + 1) h) :=
  chain_get (chain_buildRecords (List.insertionSort keyLE (aggMapOf rows)) none) i h

theorem recAt_mem (rows : List RawRow) (i : ℕ) (h : i < (simulateQueryExecution rows).length) :
    recAt rows i h ∈ simulateQueryExecution rows :=
  List.get_mem _ _ _

theorem sumCA_eq_plain {k : String} {rows : List RawRow}
    (hfin : ∀ r ∈ rows, (rowCANum r).isFinite = true) :
    sumCA k rows = plainSumCA k rows := by
  rw [sumCA, plainSumCA]
  congr 1
  apply List.map_congr_left
  intro r hr
  rw [rowCA, if_pos (hfin r (List.mem_filter.mp hr).1)]

theorem sumOA_eq_plain {k : String} {rows : List RawRow}
    (hfin : ∀ r ∈ rows, (rowOANum r).isFinite = true) :
    sumOA k rows = plainSumOA k rows := by
  rw [sumOA, plainSumOA]
  congr 1
  apply List.map_congr_left
  intro r hr
  rw [rowOA, if_pos (hfin r (List.mem_filter.mp hr).1)]

/-! Concrete example inputs used by the witnesses and counterexamples. -/

/-- The four-record example of the specification: two records in each of
two periods, all amounts finite. -/
def ex1Rows : List RawRow :=
  [⟨"20240131", some (.fin 1000000), none, some (.fin 800000), none⟩,
   ⟨"20240131", some (.fin 500000), none, some (.fin 450000), none⟩,
   ⟨"20240229", some (.fin 1200000), none, some (.fin 900000), none⟩,
   ⟨"20240229", some (.fin 400000), none, some (.fin 350000), none⟩]

/-- Two periods whose first period has a negative commitment total. -/
def ex2NegRows : List RawRow :=
  [⟨"20240101", some (.fin (-100)), none, some (.fin 80), none⟩,
   ⟨"20240201", some (.fin 50), none, some (.fin 60), none⟩]

/-- Two periods with positive totals in the first period. -/
def ex2PosRows : List RawRow :=
  [⟨"20240101", some (.fin 100), none, some (.fin 50), none⟩,
   ⟨"20240201", some (.fin 150), none, some (.fin 60), none⟩]

/-- A single-record input. -/
def ex3Rows : List RawRow :=
  [⟨"20240131", some (.fin 1000000), none, some (.fin 800000), none⟩]

/-- Two periods whose first period has zero totals. -/
def ex4Rows : List RawRow :=
  [⟨"20240101", some (.fin 0), none, some (.fin 0), none⟩,
   ⟨"20240201", some (.fin 5), none, some (.fin 6), none⟩]

/-- Three periods with valid `YYYYMMDD` keys, given out of order. -/
def ex5Rows : List RawRow :=
  [⟨"20240229", some (.fin 3), none, some (.fin 4), none⟩,
   ⟨"20240131", some (.fin 1), none, some (.fin 2), none⟩,
   ⟨"20241231", some (.fin 5), none, some (.fin 6), none⟩]

/-- A single-record input for the first-period sentinel claim. -/
def ex6Rows : List RawRow :=
  [⟨"20240131", some (.fin 7), none, some (.fin 8), none⟩]

/-- Two records in one period and one in a later period. -/
def ex9Rows : List RawRow :=
  [⟨"20240101", some (.fin 1), none, some (.fin 1), none⟩,
   ⟨"20240101", some (.fin 2), none, some (.fin 2), none⟩,
   ⟨"20240201", some (.fin 3), none, some (.fin 3), none⟩]

/-- A row with a NaN commitment amount and missing outstanding amount. -/
def ex10BadRow : RawRow := ⟨"20240101", some .nan, none, none, none⟩

/-- The bad row next to an ordinary row of the same period. -/
def ex10Rows : List RawRow :=
  [ex10BadRow, ⟨"20240101", some (.fin 10), none, some (.fin 4), none⟩]

/-! The claims. -/

/-- Claim C1: for every finite collection of raw records with finite
numeric amounts, the engine produces exactly one output row per distinct
`periodKey` in the input (the output keys are duplicate-free and are
exactly the input keys), and in each row `CommitmentAmt` is the sum of the
commitment amounts over the records with that key, `OutstandingAmt` the
sum of the outstanding amounts, and `Deals` the number of those records;
the empty input yields the empty output, not an error. -/
theorem claim1_grouping (rows : List RawRow)
    (hfin : ∀ r ∈ rows, (rowCANum r).isFinite = true ∧ (rowOANum r).isFinite = true) :
    ((simulateQueryExecution rows).map AnalyticsRecord.ProcessingDateKey).Nodup ∧
    (∀ k, k ∈ (simulateQueryExecution rows).map AnalyticsRecord.ProcessingDateKey ↔
      k ∈ rows.map RawRow.ProcessingDateKey) ∧
    (∀ r ∈ simulateQueryExecution rows,
      r.CommitmentAmt = plainSumCA r.ProcessingDateKey rows ∧
      r.OutstandingAmt = plainSumOA r.ProcessingDateKey rows ∧
      r.Deals = countFor r.ProcessingDateKey rows) ∧
    simulateQueryExecution [] = [] := by
  refine ⟨out_keys_nodup rows, mem_out_keys rows, ?_, rfl⟩
  intro r hr
  obtain ⟨hca, hoa, hd, _⟩ := out_fields hr
  exact ⟨by rw [hca]; exact sumCA_eq_plain (fun x hx => (hfin x hx).1),
    by rw [hoa]; exact sumOA_eq_plain (fun x hx => (hfin x hx).2), hd⟩

/-- Witness for C1 at the four-record example input. -/
theorem claim1_witness :
    (∀ r ∈ ex1Rows, (rowCANum r).isFinite = true ∧ (rowOANum r).isFinite = true) ∧
    (((simulateQueryExecution ex1Rows).map AnalyticsRecord.ProcessingDateKey).Nodup ∧
    (∀ k, k ∈ (simulateQueryExecution ex1Rows).map AnalyticsRecord.ProcessingDateKey ↔
      k ∈ ex1Rows.map RawRow.ProcessingDateKey) ∧
    (∀ r ∈ simulateQueryExecution ex1Rows,
      r.CommitmentAmt = plainSumCA r.ProcessingDateKey ex1Rows ∧
      r.OutstandingAmt = plainSumOA r.ProcessingDateKey ex1Rows ∧
      r.Deals = countFor r.ProcessingDateKey ex1Rows) ∧
    simulateQueryExecution [] = []) :=
  ⟨by decide, claim1_grouping ex1Rows (by decide)⟩

/-- Claim C2 counterexample: on an input whose first period has commitment
total -100 (non-null and nonzero), the second period's `ca_diff` is `none`
rather than the claimed `(current / prior) - 1`: the source guards the
division with `prev.CommitmentAmt > 0`, not `!= 0`. -/
theorem claim2_counterexample :
    ((simulateQueryExecution ex2NegRows).get? 1).map
        (fun r => (r.CommitmentAmt, r.CommitmentAmtPrior, r.ca_diff)) =
      some (50, -100, none) ∧
    (none : Option ℚ) ≠ some ((50 : ℚ) / (-100) - 1) := by
  constructor
  · simp only [ex2NegRows, simulateQueryExecution, aggMapOf, List.foldl_cons, List.foldl_nil,
      aggStep, insertAgg, rowCA, rowOA, rowCANum, rowOANum, JSNum.isFinite, JSNum.finPart,
      List.insertionSort, List.orderedInsert, keyLE, charListLE, buildRecords, mkRecord,
      List.lookup, Option.getD_none, Option.getD_some,
      show (("20240201" == "20240101") = false) from by decide]
    norm_num
  · simp

/-- Claim C2, amended: the engine computes a change ratio only when the
prior aggregate is strictly positive, in which case it equals
`(current / prior) - 1`; when the prior aggregate is zero or negative
(negative amounts being accepted as-is), the ratio is null. -/
theorem claim2_amended (rows : List RawRow) (i : ℕ)
    (h : i + 1 < (simulateQueryExecution rows).length) :
    (0 < (recAt rows i (Nat.lt_of_succ_lt h)).CommitmentAmt →
      (recAt rows (i + 1) h).ca_diff = some ((recAt rows (i + 1) h).CommitmentAmt /
        (recAt rows i (Nat.lt_of_succ_lt h)).CommitmentAmt - 1)) ∧
    ((recAt rows i (Nat.lt_of_succ_lt h)).CommitmentAmt ≤ 0 →
      (recAt rows (i + 1) h).ca_diff = none) ∧
    (0 < (recAt rows i (Nat.lt_of_succ_lt h)).OutstandingAmt →
      (recAt rows (i + 1) h).oa_diff = some ((recAt rows (i + 1) h).OutstandingAmt /
        (recAt rows i (Nat.lt_of_succ_lt h)).OutstandingAmt - 1)) ∧
    ((recAt rows i (Nat.lt_of_succ_lt h)).OutstandingAmt ≤ 0 →
      (recAt rows (i + 1) h).oa_diff = none) ∧
    (0 < (recAt rows i (Nat.lt_of_succ_lt h)).Deals →
      (recAt rows (i + 1) h).deals_diff = some (((recAt rows (i + 1) h).Deals : ℚ) /
        ((recAt rows i (Nat.lt_of_succ_lt h)).Deals : ℚ) - 1)) ∧
    ((recAt rows i (Nat.lt_of_succ_lt h)).Deals = 0 →
      (recAt rows (i + 1) h).deals_diff = none) := by
  obtain ⟨hpk, hca, hoa, hd, hcad, hoad, hdd⟩ := recAt_adjacent rows i h
  refine ⟨?_, ?_, ?_, ?_, ?_, ?_⟩
  · intro hpos
    rw [hcad, if_pos hpos, sub_div, div_self (ne_of_gt hpos)]
  · intro hle
    rw [hcad, if_neg (not_lt.mpr hle)]
  · intro hpos
    rw [hoad, if_pos hpos, sub_div, div_self (ne_of_gt hpos)]
  · intro hle
    rw [hoad, if_neg (not_lt.mpr hle)]
  · intro hpos
    have hq : (0 : ℚ) < ((recAt rows i (Nat.lt_of_succ_lt h)).Deals : ℚ) := by
      exact_mod_cast hpos
    rw [hdd, if_pos hpos, sub_div, div_self (ne_of_gt hq)]
  · intro hz
    rw [hdd, if_neg (by omega)]

/-- Witness for the amended C2 at a two-period input with positive first
period. -/
theorem claim2_witness :
    (0 + 1 < (simulateQueryExecution ex2PosRows).length) ∧
    ((0 < (recAt ex2PosRows 0 (Nat.lt_of_succ_lt (by decide))).CommitmentAmt →
      (recAt ex2PosRows (0 + 1) (by decide)).ca_diff =
        some ((recAt ex2PosRows (0 + 1) (by decide)).CommitmentAmt /
          (recAt ex2PosRows 0 (Nat.lt_of_succ_lt (by decide))).CommitmentAmt - 1))) :=
  ⟨by decide, (claim2_amended ex2PosRows 0 (by decide)).1⟩

/-- Claim C3 counterexample: on a single-record input the first (and only)
output record carries the numeric sentinel 0 in all three prior aggregate
fields (whose source type is plain `number`, not `number | null`), not
null/absent values. -/
theorem claim3_counterexample :
    ((simulateQueryExecution ex3Rows).map fun r =>
      (r.ProcessingDateKeyPrior, r.CommitmentAmtPrior, r.OutstandingAmtPrior, r.DealsPrior)) =
      [("0", (0 : ℚ), (0 : ℚ), (0 : ℕ))] := by
  rfl

/-- Claim C3, amended: for the first period of every non-empty output the
three prior aggregate fields are set to the numeric sentinel 0 (and the
prior period key to the sentinel string "0"); the source record type has
no null for these fields. -/
theorem claim3_amended (rows : List RawRow) (h : simulateQueryExecution rows ≠ []) :
    ((simulateQueryExecution rows).head h).ProcessingDateKeyPrior = "0" ∧
    ((simulateQueryExecution rows).head h).CommitmentAmtPrior = 0 ∧
    ((simulateQueryExecution rows).head h).OutstandingAmtPrior = 0 ∧
    ((simulateQueryExecution rows).head h).DealsPrior = 0 := by
  obtain ⟨p, t, hs, hh⟩ := out_head_eq h
  exact ⟨by rw [hh]; rfl, by rw [hh]; rfl, by rw [hh]; rfl, by rw [hh]; rfl⟩

/-- Witness for the amended C3 at a single-record input. -/
theorem claim3_witness :
    (simulateQueryExecution ex3Rows ≠ []) ∧
    (((simulateQueryExecution ex3Rows).head (by decide)).ProcessingDateKeyPrior = "0" ∧
    ((simulateQueryExecution ex3Rows).head (by decide)).CommitmentAmtPrior = 0 ∧
    ((simulateQueryExecution ex3Rows).head (by decide)).OutstandingAmtPrior = 0 ∧
    ((simulateQueryExecution ex3Rows).head (by decide)).DealsPrior = 0) :=
  ⟨by decide, claim3_amended ex3Rows (by decide)⟩

/-- Claim C4: for every output period with a predecessor whose
corresponding prior aggregate value is exactly 0, the corresponding change
ratio is null.  The diff fields are total `Option ℚ` values, so no
exception, `Infinity` or `NaN` can arise. -/
theorem claim4_zero_prior (rows : List RawRow) (i : ℕ)
    (h : i + 1 < (simulateQueryExecution rows).length) :
    ((recAt rows (i + 1) h).CommitmentAmtPrior = 0 →
      (recAt rows (i + 1) h).ca_diff = none) ∧
    ((recAt rows (i + 1) h).OutstandingAmtPrior = 0 →
      (recAt rows (i + 1) h).oa_diff = none) ∧
    ((recAt rows (i + 1) h).DealsPrior = 0 →
      (recAt rows (i + 1) h).deals_diff = none) := by
  obtain ⟨hpk, hca, hoa, hd, hcad, hoad, hdd⟩ := recAt_adjacent rows i h
  refine ⟨?_, ?_, ?_⟩
  · intro h0
    rw [hca] at h0
    rw [hcad, h0]
    simp
  · intro h0
    rw [hoa] at h0
    rw [hoad, h0]
    simp
  · intro h0
    rw [hd] at h0
    rw [hdd, h0]
    simp

/-- Witness for C4 at an input whose first period has zero totals. -/
theorem claim4_witness :
    (0 + 1 < (simulateQueryExecution ex4Rows).length) ∧
    (((recAt ex4Rows (0 + 1) (by decide)).CommitmentAmtPrior = 0 →
      (recAt ex4Rows (0 + 1) (by decide)).ca_diff = none) ∧
    ((recAt ex4Rows (0 + 1) (by decide)).OutstandingAmtPrior = 0 →
      (recAt ex4Rows (0 + 1) (by decide)).oa_diff = none) ∧
    ((recAt ex4Rows (0 + 1) (by decide)).DealsPrior = 0 →
      (recAt ex4Rows (0 + 1) (by decide)).deals_diff = none)) :=
  ⟨by decide, claim4_zero_prior ex4Rows 0 (by decide)⟩

/-- Claim C5: for every input whose period keys are valid `YYYYMMDD`
strings, the output sequence is strictly ascending by the numeric value of
the period key and contains no duplicate key. -/
theorem claim5_sorted (rows : List RawRow)
    (hkeys : ∀ r ∈ rows, ValidYYYYMMDD r.ProcessingDateKey) :
    List.Pairwise (fun a b => keyNum a < keyNum b)
      ((simulateQueryExecution rows).map AnalyticsRecord.ProcessingDateKey) ∧
    ((simulateQueryExecution rows).map AnalyticsRecord.ProcessingDateKey).Nodup := by
  have hnd := out_keys_nodup rows
  have hpw := out_keys_pairwise rows
  have hne : List.Pairwise (fun a b : String => a ≠ b)
      ((simulateQueryExecution rows).map AnalyticsRecord.ProcessingDateKey) := hnd
  refine ⟨List.Pairwise.imp_of_mem ?_ (hpw.and hne), hnd⟩
  intro a b ha hb hab
  have hva : ValidYYYYMMDD a := by
    obtain ⟨r, hr, hrk⟩ := List.mem_map.mp ((mem_out_keys rows a).mp ha)
    exact hrk ▸ hkeys r hr
  have hvb : ValidYYYYMMDD b := by
    obtain ⟨r, hr, hrk⟩ := List.mem_map.mp ((mem_out_keys rows b).mp hb)
    exact hrk ▸ hkeys r hr
  obtain ⟨hle, hneq⟩ := hab
  refine charListLE_val_lt (by rw [hva.1, hvb.1]) hva.2 hvb.2 hle ?_
  intro hdata
  exact hneq (String.toList_inj.mp hdata)

/-- Witness for C5 at a three-period input given out of order. -/
theorem claim5_witness :
    (∀ r ∈ ex5Rows, ValidYYYYMMDD r.ProcessingDateKey) ∧
    (List.Pairwise (fun a b => keyNum a < keyNum b)
      ((simulateQueryExecution ex5Rows).map AnalyticsRecord.ProcessingDateKey) ∧
    ((simulateQueryExecution ex5Rows).map AnalyticsRecord.ProcessingDateKey).Nodup) :=
  ⟨by decide, claim5_sorted ex5Rows (by decide)⟩

/-- Claim C6: every non-empty input (including a single-period input)
produces a non-empty output whose earliest period carries the sentinel
prior key "0" and null values in all three change-ratio fields; this case
is never an error. -/
theorem claim6_first_sentinel (rows : List RawRow) (hne : rows ≠ []) :
    ∃ h : simulateQueryExecution rows ≠ [],
      ((simulateQueryExecution rows).head h).ProcessingDateKeyPrior = "0" ∧
      ((simulateQueryExecution rows).head h).ca_diff = none ∧
      ((simulateQueryExecution rows).head h).oa_diff = none ∧
      ((simulateQueryExecution rows).head h).deals_diff = none := by
  have hout := out_ne_nil hne
  obtain ⟨p, t, hs, hh⟩ := out_head_eq hout
  exact ⟨hout, by rw [hh]; rfl, by rw [hh]; rfl, by rw [hh]; rfl, by rw [hh]; rfl⟩

/-- Witness for C6 at a single-record input. -/
theorem claim6_witness :
    (ex6Rows ≠ []) ∧
    (∃ h : simulateQueryExecution ex6Rows ≠ [],
      ((simulateQueryExecution ex6Rows).head h).ProcessingDateKeyPrior = "0" ∧
      ((simulateQueryExecution ex6Rows).head h).ca_diff = none ∧
      ((simulateQueryExecution ex6Rows).head h).oa_diff = none ∧
      ((simulateQueryExecution ex6Rows).head h).deals_diff = none) :=
  ⟨by decide, claim6_first_sentinel ex6Rows (by decide)⟩

/-- Claim C9: every output row has a deal count of at least 1 (each group
is formed from at least one input record); consequently every output
period with a predecessor has a prior deal count of at least 1 and a
non-null `deals_diff`. -/
theorem claim9_deals (rows : List RawRow) :
    (∀ r ∈ simulateQueryExecution rows, 1 ≤ r.Deals) ∧
    (∀ (i : ℕ) (h : i + 1 < (simulateQueryExecution rows).length),
      1 ≤ (recAt rows (i + 1) h).DealsPrior ∧
      ((recAt rows (i + 1) h).deals_diff).isSome = true) := by
  have hdeals : ∀ r ∈ simulateQueryExecution rows, 1 ≤ r.Deals := by
    intro r hr
    obtain ⟨_, _, hd, hmem⟩ := out_fields hr
    have := (countFor_ne_zero_iff r.ProcessingDateKey rows).mpr hmem
    omega
  refine ⟨hdeals, ?_⟩
  intro i h
  obtain ⟨hpk, hca, hoa, hd, hcad, hoad, hdd⟩ := recAt_adjacent rows i h
  have h1 : 1 ≤ (recAt rows i (Nat.lt_of_succ_lt h)).Deals :=
    hdeals _ (recAt_mem rows i (Nat.lt_of_succ_lt h))
  constructor
  · rw [hd]
    exact h1
  · rw [hdd, if_pos (by omega)]
    rfl

/-- Witness for C9 at a three-record input. -/
theorem claim9_witness :
    (∀ r ∈ simulateQueryExecution ex9Rows, 1 ≤ r.Deals) ∧
    (∀ (i : ℕ) (h : i + 1 < (simulateQueryExecution ex9Rows).length),
      1 ≤ (recAt ex9Rows (i + 1) h).DealsPrior ∧
      ((recAt ex9Rows (i + 1) h).deals_diff).isSome = true) :=
  claim9_deals ex9Rows

/-- The largest finite IEEE double, `(2^53 - 1) * 2^971`. -/
def maxDouble : ℚ := (2 ^ 53 - 1) * 2 ^ 971

/-- JavaScript `+` on numbers, modelled only as far as the overflow claim
needs it: non-finite operands propagate as in IEEE, and the addition of
two finite values saturates to the matching infinity when the exact sum
leaves the finite double range; in-range sums are kept exact (rounding is
not modelled).  At the concrete inputs used below - both addends equal to
`maxDouble`, a value a double represents exactly - the modelled result
coincides exactly with IEEE double addition. -/
def jsAdd : JSNum → JSNum → JSNum
  | .nan, _ => .nan
  | _, .nan => .nan
  | .inf, .neginf => .nan
  | .neginf, .inf => .nan
  | .inf, _ => .inf
  | _, .inf => .inf
  | .neginf, _ => .neginf
  | _, .neginf => .neginf
  | .fin a, .fin b =>
      if maxDouble < a + b then .inf
      else if a + b < -maxDouble then .neginf
      else .fin (a + b)

/-- The commitment-total accumulation of one period as the source's
`current.CommitmentAmt += isFinite(ca) ? ca : 0` performs it on IEEE
doubles, using `jsAdd` in place of the file's exact rational addition. -/
def sumCAFloat (k : String) (rows : List RawRow) : JSNum :=
  (rowsFor k rows).foldl (fun acc r => jsAdd acc (.fin (rowCA r))) (.fin 0)

/-- Two rows of one period, each with the largest finite double as its
commitment amount. -/
def exHugeRows : List RawRow :=
  [⟨"20240101", some (.fin maxDouble), none, some (.fin 1), none⟩,
   ⟨"20240101", some (.fin maxDouble), none, some (.fin 1), none⟩]

/-- Claim C10 counterexample to its final clause: both rows carry finite
commitment amounts, each passes the `isFinite` guard and contributes
itself to the total, yet the double accumulation of the period's total
overflows to Infinity - the totals do not remain finite numbers for every
input. -/
theorem claim10_counterexample :
    (exHugeRows.all fun r => (rowCANum r).isFinite) = true ∧
    sumCAFloat "20240101" exHugeRows = .inf := by
  have hpos : (0 : ℚ) < maxDouble := by norm_num [maxDouble]
  constructor
  · decide
  · have hfilter : rowsFor "20240101" exHugeRows = exHugeRows := by
      simp [rowsFor, exHugeRows]
    rw [sumCAFloat, hfilter]
    have hca : ∀ r ∈ exHugeRows, rowCA r = maxDouble := by
      intro r hr
      rcases (by simpa [exHugeRows] using hr :
        r = (⟨"20240101", some (.fin maxDouble), none, some (.fin 1), none⟩ : RawRow) ∨
        r = (⟨"20240101", some (.fin maxDouble), none, some (.fin 1), none⟩ : RawRow)) with h | h <;>
        simp [h, rowCA, rowCANum, JSNum.isFinite, JSNum.finPart]
    rw [show exHugeRows =
      [(⟨"20240101", some (.fin maxDouble), none, some (.fin 1), none⟩ : RawRow),
       ⟨"20240101", some (.fin maxDouble), none, some (.fin 1), none⟩] from rfl]
    simp only [List.foldl_cons, List.foldl_nil]
    rw [show rowCA (⟨"20240101", some (.fin maxDouble), none, some (.fin 1), none⟩ : RawRow) =
      maxDouble from by simp [rowCA, rowCANum, JSNum.isFinite, JSNum.finPart]]
    rw [show jsAdd (.fin 0) (.fin maxDouble) = .fin (0 + maxDouble) from by
      rw [jsAdd]
      rw [if_neg (by linarith), if_neg (by linarith)]]
    rw [jsAdd]
    rw [if_pos (by linarith)]

/-- Claim C10, amended: a record whose commitment or outstanding amount is
missing or non-finite is not dropped: its contribution to the
corresponding total is 0 (both when the `isFinite` guard fails and when
the field is absent, in which case the `?? 0` fallback applies), while the
record still counts toward its period's deal count; each total is the
exact sum of the guarded contributions.  (The exact sums are finite
rationals, but the program accumulates them as IEEE doubles, which can
overflow to Infinity from finite contributions, so the original "totals
remain finite numbers for every input" does not hold of the program.) -/
theorem claim10_nonfinite (rows : List RawRow) (r : RawRow) (hmem : r ∈ rows) :
    ((rowCANum r).isFinite = false → rowCA r = 0) ∧
    ((rowOANum r).isFinite = false → rowOA r = 0) ∧
    (r.CommitmentAmt.or r.commitmentamt = none → rowCA r = 0) ∧
    (r.OutstandingAmt.or r.outstandingamt = none → rowOA r = 0) ∧
    (∃ rec ∈ simulateQueryExecution rows,
      rec.ProcessingDateKey = r.ProcessingDateKey ∧
      rec.Deals = countFor r.ProcessingDateKey rows ∧
      rec.CommitmentAmt = sumCA r.ProcessingDateKey rows ∧
      rec.OutstandingAmt = sumOA r.ProcessingDateKey rows) := by
  refine ⟨?_, ?_, ?_, ?_, ?_⟩
  · intro hf
    rw [rowCA]
    simp [hf]
  · intro hf
    rw [rowOA]
    simp [hf]
  · intro hn
    rw [rowCA, rowCANum, hn]
    rfl
  · intro hn
    rw [rowOA, rowOANum, hn]
    rfl
  · have hk : r.ProcessingDateKey ∈
        (simulateQueryExecution rows).map AnalyticsRecord.ProcessingDateKey :=
      (mem_out_keys rows r.ProcessingDateKey).mpr (List.mem_map.mpr ⟨r, hmem, rfl⟩)
    obtain ⟨rec, hrec, hrk⟩ := List.mem_map.mp hk
    obtain ⟨hca, hoa, hd, _⟩ := out_fields hrec
    exact ⟨rec, hrec, hrk, by rw [hd, hrk], by rw [hca, hrk], by rw [hoa, hrk]⟩

/-- Witness for C10 at an input containing a NaN commitment amount and a
missing outstanding amount. -/
theorem claim10_witness :
    (ex10BadRow ∈ ex10Rows) ∧
    (((rowCANum ex10BadRow).isFinite = false → rowCA ex10BadRow = 0) ∧
    ((rowOANum ex10BadRow).isFinite = false → rowOA ex10BadRow = 0) ∧
    (ex10BadRow.CommitmentAmt.or ex10BadRow.commitmentamt = none → rowCA ex10BadRow = 0) ∧
    (ex10BadRow.OutstandingAmt.or ex10BadRow.outstandingamt = none → rowOA ex10BadRow = 0) ∧
    (∃ rec ∈ simulateQueryExecution ex10Rows,
      rec.ProcessingDateKey = ex10BadRow.ProcessingDateKey ∧
      rec.Deals = countFor ex10BadRow.ProcessingDateKey ex10Rows ∧
      rec.CommitmentAmt = sumCA ex10BadRow.ProcessingDateKey ex10Rows ∧
      rec.OutstandingAmt = sumOA ex10BadRow.ProcessingDateKey ex10Rows)) :=
  ⟨by decide, claim10_nonfinite ex10Rows ex10BadRow (by decide)⟩

/-! The custom commitment range builder
(`CustomCommitmentRangeBuilder.handleSubmit`). -/

/-- A custom commitment range as produced by the builder dialog. -/
structure CustomCommitmentRange where
  id : String
  label : String
  min : JSNum
  max : JSNum
deriving DecidableEq

/-- `CustomCommitmentRangeBuilder.handleSubmit`: parse results of the two
numeric form fields are given as JavaScript numbers (`parseFloat` yields
NaN on unparseable input); the handler returns early - adding nothing and
raising nothing - when either parse is NaN, when `minValue >= maxValue`,
or when the trimmed label is empty; otherwise it calls `onAddRange` with
the new range, modelled as returning `some` of it.  The `id` (built from
`Date.now()` in the source) is a parameter. -/
def handleSubmit (label : String) (minValue maxValue : JSNum) (id : String) :
    Option CustomCommitmentRange :=
  if minValue.isNaN || maxValue.isNaN || jsGE minValue maxValue || (label.trim == "") then
    none
  else
    some ⟨id, label.trim, minValue, maxValue⟩

/-- Claim C7 counterexample: at min 5, max 3 the handler rejects the range
by returning normally with nothing added: there is no `InvalidFilterError`
(or any other error) anywhere in this code path or in the repository; the
rejection is silent. -/
theorem claim7_counterexample :
    handleSubmit "Large" (.fin 5) (.fin 3) "custom-1" = none := by
  rfl

/-- Claim C7, amended: a custom commitment range whose min is greater than
or equal to its max is rejected at construction time - the submit handler
returns without adding the range to the filter specification - but
silently, by an early `return`, not by raising an `InvalidFilterError`
(which does not exist in the code). -/
theorem claim7_amended (label id : String) (a b : ℚ) (h : b ≤ a) :
    handleSubmit label (.fin a) (.fin b) id = none := by
  have hge : jsGE (.fin a) (.fin b) = true := by
    simp [jsGE, h]
  rw [handleSubmit]
  simp [JSNum.isNaN, hge]

/-- Witness for the amended C7 at min 5, max 3. -/
theorem claim7_witness :
    ((3 : ℚ) ≤ 5) ∧ handleSubmit "Large" (.fin 5) (.fin 3) "custom-1" = none :=
  ⟨by norm_num, claim7_amended "Large" "custom-1" 5 3 (by norm_num)⟩

/-! The filter evaluator. -/

/-- Modelled from the spec: a numeric range filter pair over the
commitment amount.  The Filter Evaluator itself (spec section 4.1) lives
in the backend, which is not among this repository sources; only the
request construction in `App.handleRunQuery` is. -/
structure RangePair where
  min : ℚ
  max : ℚ
deriving DecidableEq

/-- Modelled from the spec: the date filter operators. -/
inductive DateOp where
  | equals
  | greaterOrEqual
  | lessOrEqual
  | between
deriving DecidableEq

/-- Modelled from the spec: one date comparison filter over the period
key. -/
structure DateFilterSpec where
  op : DateOp
  periodKey : ℕ
  endPeriodKey : Option ℕ
deriving DecidableEq

/-- Modelled from the spec: whether a period key satisfies one date
filter.  A `between` filter without an end bound admits nothing here; the
spec rejects such a filter at construction time, which is outside this
claim. -/
def dateFilterMatches (f : DateFilterSpec) (k : ℕ) : Bool :=
  match f.op with
  | .equals => k == f.periodKey
  | .greaterOrEqual => f.periodKey ≤ k
  | .lessOrEqual => k ≤ f.periodKey
  | .between =>
      match f.endPeriodKey with
      | some e => decide (f.periodKey ≤ k) && decide (k ≤ e)
      | none => false

/-- Modelled from the spec: set-membership filter for one categorical
field - an empty allowed set means no restriction. -/
def setMatches (allowed : List String) (v : String) : Bool :=
  allowed.isEmpty || allowed.contains v

/-- Modelled from the spec: the custom-range group - union semantics over
the ranges, inclusive bounds, no restriction when the list is empty. -/
def rangesMatch (ranges : List RangePair) (amt : ℚ) : Bool :=
  ranges.isEmpty || ranges.any (fun p => decide (p.min ≤ amt) && decide (amt ≤ p.max))

/-- Modelled from the spec: the date-filter group - intersection semantics
over the filters, no restriction when the list is empty. -/
def datesMatch (fs : List DateFilterSpec) (k : ℕ) : Bool :=
  fs.isEmpty || fs.all (fun f => dateFilterMatches f k)

/-- Modelled from the spec: one raw loan-commitment record as seen by the
Filter Evaluator. -/
structure SpecRecord where
  periodKey : ℕ
  commitmentAmount : ℚ
  region : String
  lineOfBusinessId : String
  commitmentSizeGroup : String
  riskGroupDescription : String
  bankId : String
  naicsGroupName : String
deriving DecidableEq

/-- Modelled from the spec: a declarative filter specification. -/
structure FilterSpec where
  region : List String
  lineOfBusiness : List String
  commitmentSizeGroup : List String
  riskGroup : List String
  bankId : List String
  naicsGroupName : List String
  customRanges : List RangePair
  dateFilters : List DateFilterSpec
deriving DecidableEq

/-- Modelled from the spec: a record matches the overall filter iff it
matches every filter group (AND across groups). -/
def recordMatches (fs : FilterSpec) (r : SpecRecord) : Bool :=
  setMatches fs.region r.region &&
  setMatches fs.lineOfBusiness r.lineOfBusinessId &&
  setMatches fs.commitmentSizeGroup r.commitmentSizeGroup &&
  setMatches fs.riskGroup r.riskGroupDescription &&
  setMatches fs.bankId r.bankId &&
  setMatches fs.naicsGroupName r.naicsGroupName &&
  rangesMatch fs.customRanges r.commitmentAmount &&
  datesMatch fs.dateFilters r.periodKey

/-- The filter specification with every group empty. -/
def emptyFilterSpec : FilterSpec := ⟨[], [], [], [], [], [], [], []⟩

/-- From `App.handleRunQuery` (frontend page): the line-of-business,
commitment-size-group and risk-group selections are sent in the query
request only when non-empty
(`selectedFilters.lineOfBusiness.length > 0 ? selectedFilters.lineOfBusiness : undefined`
and its two siblings); an empty selection of these fields is sent as
absent. -/
def selectionToRequest (sel : List String) : Option (List String) :=
  if sel.length > 0 then some sel else none

/-- From `App.handleRunQuery`, the region field of the same request:
`region: selectedFilters.region[0] || "Rocky Mountain"`.  The first
selected region is sent, or the default region when the selection is
empty (or its first entry is the empty string, which is falsy); the
request always carries a concrete region value, never an absent
filter. -/
def regionToRequest (sel : List String) : String :=
  match sel.head? with
  | some v => if v = "" then "Rocky Mountain" else v
  | none => "Rocky Mountain"

/-- Claim C8 counterexample: an empty region selection is not treated as
an absent filter - the request construction sends the default region
"Rocky Mountain" in its place, and a record of any other region (here
"Northeast") fails the resulting one-element set-membership group.  The
empty region group therefore does restrict. -/
theorem claim8_counterexample :
    regionToRequest [] = "Rocky Mountain" ∧
    setMatches [regionToRequest []] "Northeast" = false := by
  constructor
  · rfl
  · decide

/-- Claim C8, amended: an empty custom-range list and an empty date-filter
list admit every record for their group, an empty set-membership
selection admits every record at the evaluator, and the request
construction sends empty line-of-business, commitment-size-group and
risk-group selections as absent filters; but the region field is an
exception: an empty region selection is sent as the default region
"Rocky Mountain", which excludes every record of any other region. -/
theorem claim8_amended (v : String) (amt : ℚ) (k : ℕ) (r : SpecRecord) :
    setMatches [] v = true ∧
    rangesMatch [] amt = true ∧
    datesMatch [] k = true ∧
    recordMatches emptyFilterSpec r = true ∧
    selectionToRequest [] = none ∧
    regionToRequest [] = "Rocky Mountain" ∧
    (v ≠ "Rocky Mountain" → setMatches [regionToRequest []] v = false) := by
  refine ⟨rfl, rfl, rfl, rfl, rfl, rfl, ?_⟩
  intro hv
  simp [setMatches, regionToRequest, List.contains_cons, beq_iff_eq, hv]

/-- A concrete record for the C8 witness. -/
def ex8Record : SpecRecord :=
  ⟨20240131, 100, "Northeast", "LOB1", "Small", "Low", "B1", "N1"⟩

/-- Witness for the amended C8 at a record whose region is not the
default. -/
theorem claim8_witness :
    (("Northeast" : String) ≠ "Rocky Mountain") ∧
    (setMatches [] "Northeast" = true ∧
    rangesMatch [] (100 : ℚ) = true ∧
    datesMatch [] 20240131 = true ∧
    recordMatches emptyFilterSpec ex8Record = true ∧
    selectionToRequest [] = none ∧
    regionToRequest [] = "Rocky Mountain" ∧
    (("Northeast" : String) ≠ "Rocky Mountain" →
      setMatches [regionToRequest []] "Northeast" = false)) :=
  ⟨by decide, claim8_amended "Northeast" 100 20240131 ex8Record⟩

end FinDash
